import Mathlib

/-!
# Verification of the niacin augmentation engines

Shallow embedding of the niacin library's two core engines:

* the pattern-substitution engine (`niacin/text/char.py` `_sub_chars`,
  `niacin/text/word.py` `_sub_words`, and the adjacent-pair swap
  `niacin/text/en/char.py` `swap_chars`), and
* the RandAugment-style sampler (`niacin/augment/randaugment.py`).

Strings are modelled as `List Char`.  The library draws randomness with
`random.binomial(1, probability)`; every such Bernoulli draw is modelled by
one lookup in an abstract coin stream `coins : Nat → Bool`, consumed in draw
order.  Probability `1.0` corresponds to the all-true stream (`binomial(1, 1)`
is surely 1) and probability `0.0` to the all-false stream.  Loops whose
Python counterpart may diverge (the scan of `_sub_chars`) are embedded with
explicit fuel and return `Option`; the canonical fuel is proven sufficient
whenever every pattern is non-empty.
-/

namespace Niacin

/-- Python's `str.lower` restricted to the ASCII range, as used on the
haystack by `_sub_chars` (all inputs considered here are ASCII). -/
def lowerStr (s : List Char) : List Char := s.map Char.toLower

/-- Predicate `occursAt s pat i` states that `pat` occurs in `s` at position `i`
(the next `pat.length` characters of `s` starting at `i` are `pat`). -/
def occursAt (s pat : List Char) (i : Nat) : Prop :=
  (s.drop i).take pat.length = pat

instance (s pat : List Char) (i : Nat) : Decidable (occursAt s pat i) := by
  unfold occursAt; infer_instance

/-- Fueled search mirroring Python's `str.find(pattern, index)`: the least
position `j ≥ i` at which `pat` occurs in `s`, scanning positions one by one
(`none` plays the role of the `-1` return value). -/
def findFromAux (s pat : List Char) : Nat → Nat → Option Nat
  | 0, _ => none
  | fuel + 1, i =>
    if pat.length + i ≤ s.length then
      if (s.drop i).take pat.length = pat then some i
      else findFromAux s pat fuel (i + 1)
    else none

/-- Model of `str.find(pattern, index)` with its canonical (sufficient) fuel. -/
def findFrom (s pat : List Char) (i : Nat) : Option Nat :=
  findFromAux s pat (s.length + 1 - i) i

/-- One per-pattern scan of `_sub_chars` (`niacin/text/char.py`, lines
57-66), with explicit fuel.  State: current string `s`, cursor `idx`, coin
counter `c`.  While `0 ≤ idx < len(s)`, find the next occurrence of `pat`
in the lowercased string at or after `idx`; on `none` stop; otherwise draw
one coin: on success splice in `sub` and move the cursor to `i + len sub`,
on failure move the cursor to `i + len pat`. -/
def subCharsPat (coins : Nat → Bool) (pat sub : List Char) :
    Nat → List Char → Nat → Nat → Option (List Char × Nat)
  | 0, _, _, _ => none
  | fuel + 1, s, idx, c =>
    if idx < s.length then
      match findFrom (lowerStr s) pat idx with
      | none => some (s, c)
      | some i =>
        if coins c then
          subCharsPat coins pat sub fuel
            (s.take i ++ sub ++ s.drop (i + pat.length)) (i + sub.length) (c + 1)
        else
          subCharsPat coins pat sub fuel s (i + pat.length) (c + 1)
    else some (s, c)

/-- The outer loop of `_sub_chars`: each `(pattern, sub)` entry of the
ordered mapping runs one per-pattern scan on the then-current string,
threading the coin counter.  Each scan gets its canonical fuel. -/
def subCharsList (coins : Nat → Bool) :
    List (List Char × List Char) → List Char → Nat → Option (List Char × Nat)
  | [], s, c => some (s, c)
  | (pat, sub) :: rest, s, c =>
    match subCharsPat coins pat sub (s.length + 1) s 0 c with
    | none => none
    | some (s2, c2) => subCharsList coins rest s2 c2

/-- Model of `_sub_chars(string, probability, mapping)` (`niacin/text/char.py`).
`none` models divergence of the Python loop (possible only when a pattern
is empty). -/
def sub_chars (coins : Nat → Bool) (mapping : List (List Char × List Char))
    (s : List Char) : Option (List Char) :=
  (subCharsList coins mapping s 0).map Prod.fst

/-- Coin stream for `probability = 1.0`: `binomial(1, 1.0)` is surely 1. -/
def allTrue : Nat → Bool := fun _ => true

/-- Coin stream for `probability = 0.0`: `binomial(1, 0.0)` is surely 0. -/
def allFalse : Nat → Bool := fun _ => false

/-- Table `LEETMAP` (`niacin/text/char.py`, lines 16-31), in source order. -/
def LEETMAP : List (List Char × List Char) :=
  [("anned".toList, "&".toList),
   ("and".toList, "&".toList),
   ("what".toList, "wat".toList),
   ("are".toList, "r".toList),
   ("ate".toList, "8".toList),
   ("at".toList, "@".toList),
   ("one".toList, "1".toList),
   ("you".toList, "u".toList),
   ("t".toList, "7".toList),
   ("o".toList, "0".toList),
   ("e".toList, "3".toList),
   ("l".toList, "1".toList)]

/-- Model of `add_leet(string, p)` (`niacin/text/char.py`, lines 127-147). -/
def add_leet (coins : Nat → Bool) (s : List Char) : Option (List Char) :=
  sub_chars coins LEETMAP s

/-- Modelled from the spec: the packaged contraction table
(`niacin/data/contractions.json`, loaded by `niacin/text/char.py` line 33,
is not under `src/`).  Per the spec's round-trip example it maps the phrase
`"is not"` to `"isn't"`; `EXPAND` below is its exact inverse `{v: k}`. -/
def CONTRACT : List (List Char × List Char) :=
  [("is not".toList, ['i', 's', 'n', Char.ofNat 39, 't'])]

/-- Table `EXPAND`, Python `{v: k for k, v in CONTRACT.items()}`
(`niacin/text/char.py`, line 36). -/
def EXPAND : List (List Char × List Char) :=
  CONTRACT.map (fun kv => (kv.2, kv.1))

/-- Model of `add_contractions(string, p)` (`niacin/text/char.py`, lines 92-107). -/
def add_contractions (coins : Nat → Bool) (s : List Char) : Option (List Char) :=
  sub_chars coins CONTRACT s

/-- Model of `add_expansions(string, p)` (`niacin/text/char.py`, lines 110-124). -/
def add_expansions (coins : Nat → Bool) (s : List Char) : Option (List Char) :=
  sub_chars coins EXPAND s

/-! ## Word-granularity substitution (`niacin/text/word.py`) -/

/-- Python `str.isspace` on the whitespace characters `str.split()` splits
on (ASCII subset, as used by all inputs considered here). -/
def pyIsSpace (c : Char) : Bool :=
  c = ' ' || c = '\t' || c = '\n' || c = '\r' || c = '\x0b' || c = '\x0c'

/-- Accumulator worker for `str.split()`: split on runs of whitespace,
dropping empty fields. -/
def splitGo : List Char → List Char → List (List Char)
  | [], acc => if acc.isEmpty then [] else [acc.reverse]
  | ch :: cs, acc =>
    if pyIsSpace ch then
      if acc.isEmpty then splitGo cs [] else acc.reverse :: splitGo cs []
    else splitGo cs (ch :: acc)

/-- Python `string.split()` (no separator argument). -/
def pySplit (s : List Char) : List (List Char) := splitGo s []

/-- One pass of `_sub_words` for a single `(pattern, sub)` entry
(`niacin/text/word.py`, lines 33-35): for each token in order, if its
lowercased form equals `pattern`, draw one coin and on success replace the
token by `sub` (the coin is only drawn when the equality holds, mirroring
Python's short-circuit `and`). -/
def subWordsPass (coins : Nat → Bool) (pat sub : List Char) :
    List (List Char) → Nat → List (List Char) × Nat
  | [], c => ([], c)
  | w :: ws, c =>
    if lowerStr w = pat then
      let w2 := if coins c then sub else w
      let pr := subWordsPass coins pat sub ws (c + 1)
      (w2 :: pr.1, pr.2)
    else
      let pr := subWordsPass coins pat sub ws c
      (w :: pr.1, pr.2)

/-- The outer loop of `_sub_words`: apply each mapping entry in order to the
token list, threading the coin counter. -/
def subWordsList (coins : Nat → Bool) :
    List (List Char × List Char) → List (List Char) → Nat → List (List Char) × Nat
  | [], ws, c => (ws, c)
  | (pat, sub) :: rest, ws, c =>
    let pr := subWordsPass coins pat sub ws c
    subWordsList coins rest pr.1 pr.2

/-- Python `" ".join(words)`. -/
def joinSpace : List (List Char) → List Char
  | [] => []
  | w :: rest => w ++ rest.flatMap (fun x => ' ' :: x)

/-- Model of `_sub_words(string, probability, mapping)` (`niacin/text/word.py`,
lines 30-36): split on whitespace, substitute whole tokens, drop tokens
that became empty, rejoin with single spaces. -/
def sub_words (coins : Nat → Bool) (mapping : List (List Char × List Char))
    (s : List Char) : List Char :=
  joinSpace (((subWordsList coins mapping (pySplit s) 0).1).filter
    (fun w => !w.isEmpty))

/-- Tuple `ARTICLES` (`niacin/text/word.py`, line 25), in source order. -/
def ARTICLES : List (List Char) :=
  ["the".toList, "a".toList, "an".toList, "these".toList,
   "those".toList, "his".toList, "hers".toList, "their".toList]

/-- Model of `remove_articles(string, p)` (`niacin/text/word.py`, lines 172-194):
`_sub_words` with the mapping `{article: "" for article in ARTICLES}`. -/
def remove_articles (coins : Nat → Bool) (s : List Char) : List Char :=
  sub_words coins (ARTICLES.map (fun a => (a, ([] : List Char)))) s

/-! ## Adjacent-pair swap (`niacin/text/en/char.py`, `swap_chars`) -/

/-- The scan loop of `swap_chars` (`niacin/text/en/char.py`, lines 304-312):
while at least two elements remain, draw one coin; on success swap the two
elements at the cursor and advance by 2, otherwise advance by 1.  Returns
the transformed list and the final coin counter (so the number of Bernoulli
draws performed is observable). -/
def swapGo (coins : Nat → Bool) : List Char → Nat → List Char × Nat
  | a :: b :: rest, c =>
    if coins c then
      let pr := swapGo coins rest (c + 1)
      (b :: a :: pr.1, pr.2)
    else
      let pr := swapGo coins (b :: rest) (c + 1)
      (a :: pr.1, pr.2)
  | l, c => (l, c)

/-- Model of `swap_chars(string, p)` (`niacin/text/en/char.py`, lines 281-312). -/
def swap_chars (coins : Nat → Bool) (s : List Char) : List Char :=
  (swapGo coins s 0).1

/-! ## The RandAugment sampler (`niacin/augment/randaugment.py`)

The sampler's magnitude `m` is stored as a Python float `_p`; floats are
modelled exactly as the dyadic rationals IEEE-754 binary64 arithmetic
produces (normal range; round to nearest, ties to even), so the getter's
truncation `int(self._p * 100)` is reproduced bit-for-bit. -/

/-- Fueled worker for the floor base-2 logarithm on naturals (structural
recursion, so it reduces inside the kernel). -/
def log2Go : Nat → Nat → Nat
  | 0, _ => 0
  | fuel + 1, n => if 2 ≤ n then log2Go fuel (n / 2) + 1 else 0

/-- Floor base-2 logarithm of a natural number (0 for inputs below 2). -/
def natLog2 (n : Nat) : Nat := log2Go n n

/-- Floor of the base-2 logarithm of a positive rational. -/
def qlog2 (q : ℚ) : ℤ :=
  let a : ℤ := natLog2 q.num.natAbs
  let b : ℤ := natLog2 q.den
  let e : ℤ := a - b
  if q < (if 0 ≤ e then ((2 ^ e.toNat : ℕ) : ℚ) else 1 / ((2 ^ (-e).toNat : ℕ) : ℚ))
  then e - 1 else e

/-- Shift `q * 2 ^ t` for an integer exponent, via natural powers only. -/
def qshift (q : ℚ) (t : ℤ) : ℚ :=
  if 0 ≤ t then q * ((2 ^ t.toNat : ℕ) : ℚ) else q / ((2 ^ (-t).toNat : ℕ) : ℚ)

/-- Floor of a rational as an integer (floor division of the numerator by
the denominator). -/
def qfloor (q : ℚ) : ℤ := Int.fdiv q.num q.den

/-- Round a rational to the nearest integer, ties to even. -/
def rhe (m : ℚ) : ℤ :=
  let f := qfloor m
  let r := m - (f : ℚ)
  if r < 1 / 2 then f
  else if 1 / 2 < r then f + 1
  else if f % 2 = 0 then f else f + 1

/-- Round a positive rational to 53 significant bits (nearest, ties to
even): the binary64 value of `q` in the normal range. -/
def roundPos (q : ℚ) : ℚ :=
  let t : ℤ := 52 - qlog2 q
  qshift ((rhe (qshift q t) : ℚ)) (-t)

/-- The binary64 value nearest a rational (normal range; no
overflow/subnormal handling, which the sampler's `[−|v|, |v|] ⊆ (ε, 10³)`
magnitudes never reach). -/
def roundDouble (q : ℚ) : ℚ :=
  if q = 0 then 0 else if q < 0 then -roundPos (-q) else roundPos q

/-- Python `int(x)` on a float value: truncation toward zero
(Lean's `Int` division `/` is T-division). -/
def pyInt (q : ℚ) : ℤ := q.num / (q.den : ℤ)

/-- Python's two-argument `min` on exact float values. -/
def pymin (a b : ℚ) : ℚ := if a ≤ b then a else b

/-- Python's two-argument `max` on exact float values. -/
def pymax (a b : ℚ) : ℚ := if b ≤ a then a else b

/-- The `m` setter (`niacin/augment/randaugment.py`, lines 92-94):
`self._p = min(max(value / 100, 0.0), 1.0)` under binary64 arithmetic
(the quotient is correctly rounded; `min`/`max` are exact). -/
def mSetter (value : ℤ) : ℚ :=
  pymin (pymax (roundDouble ((value : ℚ) / 100)) 0) 1

/-- The `m` getter (`niacin/augment/randaugment.py`, lines 86-90):
`int(self._p * 100)` under binary64 arithmetic (correctly rounded product,
then truncation toward zero). -/
def mGetter (p : ℚ) : ℤ := pyInt (roundDouble (p * 100))

/-- The `n` setter (`niacin/augment/randaugment.py`, lines 78-84): raise
`ValueError` when `value > len(self._transforms)`, otherwise store. -/
def nSetter (nFuns : ℕ) (value : ℤ) : Except String ℤ :=
  if (nFuns : ℤ) < value then
    Except.error "Sample size n must be <= number of transforms"
  else Except.ok value

/-- Sampler state after a successful `__init__` (pool kept abstractly). -/
structure RAState (α : Type) where
  transforms : List α
  n : ℤ
  p : ℚ

/-- Model of `RandAugment.__init__` (`niacin/augment/randaugment.py`, lines 47-59):
stores the pool, then runs the `n` setter (which may raise) and the `m`
setter (which clamps, never raises). -/
def raInit (transforms : List α) (m n : ℤ) : Except String (RAState α) :=
  match nSetter transforms.length n with
  | Except.error e => Except.error e
  | Except.ok nv => Except.ok ⟨transforms, nv, mSetter m⟩

/-- Modelled from the contract of the external without-replacement sampling
primitive (`numpy.random.Generator.choice(pool, size=n, replace=False)`,
an excluded collaborator per the spec): a Fisher-Yates-style draw in which
the RNG is abstracted as a pick stream; draw `j` removes one element of the
remaining pool, chosen by `pick` reduced modulo the current pool size. -/
def sampleGo (pick : Nat → Nat) : Nat → Nat → List α → List α
  | 0, _, _ => []
  | _ + 1, _, [] => []
  | n + 1, c, x :: xs =>
    let avail := x :: xs
    let j := pick c % avail.length
    avail.getD j x :: sampleGo pick n (c + 1) (avail.eraseIdx j)

/-- Model of `RandAugment.__iter__` (`niacin/augment/randaugment.py`, lines 64-70):
draw `n` pool elements without replacement and pre-bind each with the
current probability `p` (`partial(fun, p=self._p)` is modelled as
pairing). -/
def raIter (pick : Nat → Nat) (pool : List α) (n : ℕ) (p : ℚ) :
    List (α × ℚ) :=
  (sampleGo pick n 0 pool).map (fun f => (f, p))

/-! ## Correctness of the fueled substring search -/

lemma lowerStr_length (s : List Char) : (lowerStr s).length = s.length := by
  simp [lowerStr]

lemma occursAt_bound {s pat : List Char} {k : Nat} (hpat : pat ≠ [])
    (h : occursAt s pat k) : pat.length + k ≤ s.length := by
  unfold occursAt at h
  have hlen := congrArg List.length h
  simp [List.length_take, List.length_drop] at hlen
  have hpos : 0 < pat.length := List.length_pos.mpr hpat
  omega

lemma findFromAux_some {s pat : List Char} :
    ∀ {fuel i j}, findFromAux s pat fuel i = some j →
      i ≤ j ∧ occursAt s pat j ∧ ∀ k, i ≤ k → k < j → ¬ occursAt s pat k := by
  intro fuel
  induction fuel with
  | zero => intro i j h; simp [findFromAux] at h
  | succ n ih =>
    intro i j h
    unfold findFromAux at h
    by_cases hg : pat.length + i ≤ s.length
    · rw [if_pos hg] at h
      by_cases hm : (s.drop i).take pat.length = pat
      · rw [if_pos hm] at h
        cases h
        exact ⟨le_refl _, hm, fun k hk1 hk2 => absurd (lt_of_le_of_lt hk1 hk2) (lt_irrefl _)⟩
      · rw [if_neg hm] at h
        obtain ⟨h1, h2, h3⟩ := ih h
        refine ⟨by omega, h2, ?_⟩
        intro k hk1 hk2
        rcases Nat.eq_or_lt_of_le hk1 with heq | hlt
        · rw [← heq]; exact hm
        · exact h3 k hlt hk2
    · rw [if_neg hg] at h
      cases h

lemma findFromAux_none {s pat : List Char} (hpat : pat ≠ []) :
    ∀ {fuel i}, findFromAux s pat fuel i = none → s.length + 1 ≤ fuel + i →
      ∀ k, i ≤ k → ¬ occursAt s pat k := by
  intro fuel
  induction fuel with
  | zero =>
    intro i _ hle k hk hocc
    have := occursAt_bound hpat hocc
    have hpos : 0 < pat.length := List.length_pos.mpr hpat
    omega
  | succ n ih =>
    intro i h hle k hk hocc
    unfold findFromAux at h
    by_cases hg : pat.length + i ≤ s.length
    · rw [if_pos hg] at h
      by_cases hm : (s.drop i).take pat.length = pat
      · rw [if_pos hm] at h; cases h
      · rw [if_neg hm] at h
        rcases Nat.eq_or_lt_of_le hk with heq | hlt
        · rw [← heq] at hocc; exact hm hocc
        · exact ih h (by omega) k hlt hocc
    · have hb := occursAt_bound hpat hocc
      omega

lemma findFrom_some {s pat : List Char} {i j : Nat}
    (h : findFrom s pat i = some j) :
    i ≤ j ∧ occursAt s pat j ∧ ∀ k, i ≤ k → k < j → ¬ occursAt s pat k :=
  findFromAux_some h

lemma findFrom_none {s pat : List Char} {i : Nat} (hpat : pat ≠ [])
    (h : findFrom s pat i = none) : ∀ k, i ≤ k → ¬ occursAt s pat k :=
  findFromAux_none hpat h (by omega)

/-! ## Behaviour of the per-pattern scan -/

lemma subCharsPat_allFalse {pat sub : List Char} :
    ∀ {fuel s idx c r}, subCharsPat allFalse pat sub fuel s idx c = some r →
      r.1 = s := by
  intro fuel
  induction fuel with
  | zero => intro s idx c r h; simp [subCharsPat] at h
  | succ n ih =>
    intro s idx c r h
    unfold subCharsPat at h
    by_cases hg : idx < s.length
    · rw [if_pos hg] at h
      cases hfind : findFrom (lowerStr s) pat idx with
      | none => rw [hfind] at h; cases h; rfl
      | some i =>
        rw [hfind] at h
        simp only [allFalse, if_neg Bool.false_ne_true] at h
        exact ih h
    · rw [if_neg hg] at h
      cases h
      rfl

lemma subCharsPat_total (coins : Nat → Bool) (pat sub : List Char)
    (hpat : pat ≠ []) :
    ∀ fuel s idx c, s.length + 1 ≤ fuel + idx → 1 ≤ fuel →
      ∃ r, subCharsPat coins pat sub fuel s idx c = some r := by
  intro fuel
  induction fuel with
  | zero => intro s idx c _ h1; omega
  | succ n ih =>
    intro s idx c hle _
    unfold subCharsPat
    by_cases hg : idx < s.length
    · rw [if_pos hg]
      cases hfind : findFrom (lowerStr s) pat idx with
      | none => exact ⟨(s, c), rfl⟩
      | some i =>
        obtain ⟨hij, hocc, _⟩ := findFrom_some hfind
        have hb := occursAt_bound hpat hocc
        rw [lowerStr_length] at hb
        have hpos : 0 < pat.length := List.length_pos.mpr hpat
        dsimp only
        have hlen : (s.take i ++ sub ++ s.drop (i + pat.length)).length
            = i + sub.length + (s.length - (i + pat.length)) := by
          simp [List.length_append, List.length_take, List.length_drop]
          omega
        by_cases hc : coins c
        · rw [if_pos hc]
          exact ih (s.take i ++ sub ++ s.drop (i + pat.length))
            (i + sub.length) (c + 1) (by rw [hlen]; omega) (by omega)
        · rw [if_neg hc]
          exact ih s (i + pat.length) (c + 1) (by omega) (by omega)
    · rw [if_neg hg]
      exact ⟨(s, c), rfl⟩

lemma subCharsList_allFalse :
    ∀ {mapping s c r}, subCharsList allFalse mapping s c = some r → r.1 = s := by
  intro mapping
  induction mapping with
  | nil => intro s c r h; cases h; rfl
  | cons pr rest ih =>
    intro s c r h
    obtain ⟨pat, sub⟩ := pr
    unfold subCharsList at h
    cases hp : subCharsPat allFalse pat sub (s.length + 1) s 0 c with
    | none => rw [hp] at h; cases h
    | some r2 =>
      rw [hp] at h
      have h2 := subCharsPat_allFalse hp
      have h3 := ih h
      rw [h3, h2]

lemma subCharsList_total (coins : Nat → Bool) :
    ∀ {mapping : List (List Char × List Char)},
      (∀ pr ∈ mapping, pr.1 ≠ ([] : List Char)) →
      ∀ s c, ∃ r, subCharsList coins mapping s c = some r := by
  intro mapping
  induction mapping with
  | nil => intro _ s c; exact ⟨(s, c), rfl⟩
  | cons pr rest ih =>
    intro hne s c
    obtain ⟨pat, sub⟩ := pr
    have hpat : pat ≠ [] := hne (pat, sub) (List.mem_cons_self _ _)
    obtain ⟨r2, hr2⟩ :=
      subCharsPat_total coins pat sub hpat (s.length + 1) s 0 c
        (by omega) (by omega)
    obtain ⟨r3, hr3⟩ := ih (fun q hq => hne q (List.mem_cons_of_mem _ hq)) r2.1 r2.2
    refine ⟨r3, ?_⟩
    unfold subCharsList
    rw [hr2]
    exact hr3

/-- Declarative, spec-level description of one per-pattern scan of
`_sub_chars`, written directly from the spec text: from state
`(s, cursor, coin counter)` the scan either stops (cursor beyond the end,
or no occurrence of the pattern at or after the cursor — so no occurrence
is silently missed), or visits the *least* occurrence `i` at or after the
cursor with exactly one Bernoulli draw: on success the span
`[i, i + pat.length)` is replaced by `sub` and the cursor moves to
`i + sub.length`; on failure the string is unchanged and the cursor moves
to `i + pat.length`. -/
inductive ScanSpec (coins : Nat → Bool) (pat sub : List Char) :
    List Char → Nat → Nat → List Char → Nat → Prop where
  | stopLen : ∀ s idx c, s.length ≤ idx → ScanSpec coins pat sub s idx c s c
  | stopNone : ∀ s idx c, idx < s.length →
      (∀ k, idx ≤ k → ¬ occursAt (lowerStr s) pat k) →
      ScanSpec coins pat sub s idx c s c
  | hit : ∀ s idx c i out c2, idx < s.length → idx ≤ i →
      occursAt (lowerStr s) pat i →
      (∀ k, idx ≤ k → k < i → ¬ occursAt (lowerStr s) pat k) →
      coins c = true →
      ScanSpec coins pat sub (s.take i ++ sub ++ s.drop (i + pat.length))
        (i + sub.length) (c + 1) out c2 →
      ScanSpec coins pat sub s idx c out c2
  | miss : ∀ s idx c i out c2, idx < s.length → idx ≤ i →
      occursAt (lowerStr s) pat i →
      (∀ k, idx ≤ k → k < i → ¬ occursAt (lowerStr s) pat k) →
      coins c = false →
      ScanSpec coins pat sub s (i + pat.length) (c + 1) out c2 →
      ScanSpec coins pat sub s idx c out c2

lemma subCharsPat_scanSpec {coins : Nat → Bool} {pat sub : List Char}
    (hpat : pat ≠ []) :
    ∀ fuel s idx c out c2,
      subCharsPat coins pat sub fuel s idx c = some (out, c2) →
      ScanSpec coins pat sub s idx c out c2 := by
  intro fuel
  induction fuel with
  | zero => intro s idx c out c2 h; simp [subCharsPat] at h
  | succ n ih =>
    intro s idx c out c2 h
    unfold subCharsPat at h
    by_cases hg : idx < s.length
    · rw [if_pos hg] at h
      cases hfind : findFrom (lowerStr s) pat idx with
      | none =>
        rw [hfind] at h
        cases h
        exact ScanSpec.stopNone s idx c hg (findFrom_none hpat hfind)
      | some i =>
        rw [hfind] at h
        dsimp only at h
        obtain ⟨hij, hocc, hleast⟩ := findFrom_some hfind
        by_cases hc : coins c
        · rw [if_pos hc] at h
          exact ScanSpec.hit s idx c i out c2 hg hij hocc hleast hc (ih _ _ _ _ _ h)
        · rw [if_neg hc] at h
          exact ScanSpec.miss s idx c i out c2 hg hij hocc hleast
            (Bool.not_eq_true _ ▸ hc) (ih _ _ _ _ _ h)
    · rw [if_neg hg] at h
      cases h
      exact ScanSpec.stopLen s idx c (by omega)

/-! ## Behaviour of the word-granularity engine -/

lemma splitGo_ne_nil : ∀ (s acc : List Char) (w : List Char),
    w ∈ splitGo s acc → w ≠ [] := by
  intro s
  induction s with
  | nil =>
    intro acc w hw
    unfold splitGo at hw
    by_cases ha : acc.isEmpty
    · rw [if_pos ha] at hw
      exact absurd hw (List.not_mem_nil w)
    · rw [if_neg ha] at hw
      have hacc : acc ≠ [] := fun hn => ha (by simp [hn])
      have h : w = acc.reverse := by simpa using hw
      rw [h]
      simp only [ne_eq, List.reverse_eq_nil_iff]
      exact hacc
  | cons ch cs ih =>
    intro acc w hw
    unfold splitGo at hw
    by_cases hsp : pyIsSpace ch
    · rw [if_pos hsp] at hw
      by_cases ha : acc.isEmpty
      · rw [if_pos ha] at hw
        exact ih [] w hw
      · rw [if_neg ha] at hw
        rcases List.mem_cons.mp hw with h | h
        · have hacc : acc ≠ [] := fun hn => ha (by simp [hn])
          rw [h]
          simp only [ne_eq, List.reverse_eq_nil_iff]
          exact hacc
        · exact ih [] w h
    · rw [if_neg hsp] at hw
      exact ih (ch :: acc) w hw

lemma pySplit_ne_nil {s : List Char} {w : List Char} (hw : w ∈ pySplit s) :
    w ≠ [] :=
  splitGo_ne_nil s [] w hw

lemma subWordsPass_allFalse {pat sub : List Char} :
    ∀ (ws : List (List Char)) (c : Nat),
      (subWordsPass allFalse pat sub ws c).1 = ws := by
  intro ws
  induction ws with
  | nil => intro c; rfl
  | cons w rest ih =>
    intro c
    unfold subWordsPass
    by_cases hm : lowerStr w = pat
    · rw [if_pos hm]
      simp only [allFalse, Bool.false_eq_true, if_false]
      simp [ih]
    · rw [if_neg hm]
      simp [ih]

lemma subWordsList_allFalse :
    ∀ (mapping : List (List Char × List Char)) (ws : List (List Char)) (c : Nat),
      (subWordsList allFalse mapping ws c).1 = ws := by
  intro mapping
  induction mapping with
  | nil => intro ws c; rfl
  | cons pr rest ih =>
    intro ws c
    obtain ⟨pat, sub⟩ := pr
    unfold subWordsList
    rw [ih, subWordsPass_allFalse]

lemma sub_words_allFalse (mapping : List (List Char × List Char))
    (s : List Char) :
    sub_words allFalse mapping s = joinSpace (pySplit s) := by
  unfold sub_words
  rw [subWordsList_allFalse]
  congr 1
  apply List.filter_eq_self.mpr
  intro w hw
  simpa [List.isEmpty_iff] using pySplit_ne_nil hw

/-! ## Behaviour of the adjacent-pair swap -/

/-- Declarative description of what `swap_chars` may do to a sequence:
the output is obtained from the input by swapping some set of pairwise
disjoint adjacent pairs (so no element takes part in two swaps, and every
element stays within one position of where a swap put it). -/
inductive SwapSpec : List Char → List Char → Prop where
  | nil : SwapSpec [] []
  | keep : ∀ a l l2, SwapSpec l l2 → SwapSpec (a :: l) (a :: l2)
  | swap : ∀ a b l l2, SwapSpec l l2 → SwapSpec (a :: b :: l) (b :: a :: l2)

lemma swapGo_spec (coins : Nat → Bool) :
    ∀ n (s : List Char), s.length ≤ n → ∀ c,
      SwapSpec s (swapGo coins s c).1 ∧
      (swapGo coins s c).2 ≤ c + (s.length - 1) := by
  intro n
  induction n with
  | zero =>
    intro s hs c
    have : s = [] := List.length_eq_zero.mp (Nat.le_zero.mp hs)
    rw [this]
    exact ⟨SwapSpec.nil, by simp [swapGo]⟩
  | succ n ih =>
    intro s hs c
    match s with
    | [] => exact ⟨SwapSpec.nil, by simp [swapGo]⟩
    | [a] => exact ⟨SwapSpec.keep a [] [] SwapSpec.nil, by simp [swapGo]⟩
    | a :: b :: rest =>
      have hlen : (a :: b :: rest).length = rest.length + 2 := by simp
      unfold swapGo
      by_cases hc : coins c
      · rw [if_pos hc]
        obtain ⟨h1, h2⟩ := ih rest (by simp at hs; omega) (c + 1)
        exact ⟨SwapSpec.swap a b rest _ h1, by simp; omega⟩
      · rw [if_neg hc]
        obtain ⟨h1, h2⟩ := ih (b :: rest) (by simp at hs ⊢; omega) (c + 1)
        exact ⟨SwapSpec.keep a (b :: rest) _ h1, by simp at h2 ⊢; omega⟩

/-! ## Behaviour of the sampler -/

lemma perm_getD_eraseIdx {α : Type} (d : α) :
    ∀ (l : List α) (j : Nat), j < l.length →
      l.Perm (l.getD j d :: l.eraseIdx j) := by
  intro l
  induction l with
  | nil => intro j hj; simp at hj
  | cons x xs ih =>
    intro j hj
    match j with
    | 0 => simp [List.eraseIdx]
    | j + 1 =>
      have hj2 : j < xs.length := by simp at hj; omega
      have hperm := ih j hj2
      have h1 : (x :: xs).Perm (x :: (xs.getD j d :: xs.eraseIdx j)) :=
        List.Perm.cons x hperm
      have h2 : (x :: (xs.getD j d :: xs.eraseIdx j)).Perm
          (xs.getD j d :: x :: xs.eraseIdx j) := List.Perm.swap _ _ _
      simpa [List.eraseIdx] using h1.trans h2

lemma sampleGo_spec {α : Type} (pick : Nat → Nat) :
    ∀ (n : Nat) (c : Nat) (pool : List α), n ≤ pool.length →
      (sampleGo pick n c pool).length = n ∧
      (sampleGo pick n c pool).Subperm pool := by
  intro n
  induction n with
  | zero => intro c pool _; exact ⟨rfl, List.nil_subperm⟩
  | succ n ih =>
    intro c pool hn
    match pool with
    | [] => simp at hn
    | x :: xs =>
      have hj : pick c % (xs.length + 1) < xs.length + 1 :=
        Nat.mod_lt _ (by omega)
      have hj2 : pick c % (xs.length + 1) < (x :: xs).length := by
        simpa using hj
      have herase : ((x :: xs).eraseIdx (pick c % (xs.length + 1))).length
          = xs.length := by
        rw [List.length_eraseIdx_of_lt hj2]
        simp
      obtain ⟨ih1, ih2⟩ := ih (c + 1)
        ((x :: xs).eraseIdx (pick c % (xs.length + 1)))
        (by rw [herase]; simp at hn; omega)
      have hperm := perm_getD_eraseIdx x (x :: xs) (pick c % (xs.length + 1)) hj2
      constructor
      · simp only [sampleGo, List.length_cons]
        simp [ih1]
      · simp only [sampleGo, List.length_cons]
        refine List.Subperm.trans ?_ hperm.symm.subperm
        exact (List.subperm_cons _).mpr ih2

/-- Properly contracted form of the C9 example input
(the string `alice isn't dead`). -/
def aliceContracted : List Char :=
  "alice isn".toList ++ [Char.ofNat 39] ++ "t dead".toList

/-! ## Claim theorems -/

/-- C1: in the character-granularity scan of `_sub_chars`, for every coin
stream, every state and every non-empty pattern, a returning scan follows
the declarative cursor discipline `ScanSpec`: each visited match is the
least occurrence of the pattern at or after the cursor (so none is skipped,
also after a length-changing replacement), it consumes exactly one
Bernoulli draw, a successful draw replaces the span `[i, i + len pat)` by
the replacement and moves the cursor to `i + len sub`, a failed draw moves
the cursor to `i + len pat`, and the scan only stops once no occurrence at
or after the cursor remains. -/
theorem claim_C1_scan_cursor_invariant (coins : Nat → Bool)
    (pat sub : List Char) (hpat : pat ≠ []) (fuel : Nat) (s : List Char)
    (idx c : Nat) (out : List Char) (c2 : Nat)
    (h : subCharsPat coins pat sub fuel s idx c = some (out, c2)) :
    ScanSpec coins pat sub s idx c out c2 :=
  subCharsPat_scanSpec hpat fuel s idx c out c2 h

/-- Witness for C1 at a concrete input: scanning `"foo"` for pattern `"o"`
with replacement `"0"` and all-true coins returns `"f00"` after two draws,
and that run satisfies `ScanSpec`. -/
theorem claim_C1_scan_cursor_invariant_witness :
    ScanSpec allTrue "o".toList "0".toList "foo".toList 0 0 "f00".toList 2 :=
  claim_C1_scan_cursor_invariant allTrue "o".toList "0".toList (by decide)
    4 "foo".toList 0 0 "f00".toList 2 (by decide)

/-- C2 counterexample: constructing the sampler with `n = -1` over a pool
of two transforms does not raise a validation error — the negative value is
silently stored, refuting the claimed lower-bound check `0 ≤ n`. -/
theorem claim_C2_counterexample :
    raInit ([0, 1] : List Nat) 10 (-1)
      = Except.ok ⟨[0, 1], -1, mSetter 10⟩ := rfl

/-- C2 (amended): `n` is validated against the upper bound only —
construction (and the setter it runs) raises a validation error exactly
when `n > len(pool)` (in particular for `n = 1` over an empty pool), and
otherwise stores `n` as given, including negative values. -/
theorem claim_C2_n_validation {α : Type} (transforms : List α) (m n : ℤ) :
    ((∃ e, raInit transforms m n = Except.error e) ↔
      (transforms.length : ℤ) < n) ∧
    ((∃ e, nSetter transforms.length n = Except.error e) ↔
      (transforms.length : ℤ) < n) ∧
    (∀ st, raInit transforms m n = Except.ok st →
      st.n = n ∧ st.transforms = transforms ∧ st.p = mSetter m) := by
  refine ⟨⟨?_, ?_⟩, ⟨?_, ?_⟩, ?_⟩
  · rintro ⟨e, he⟩
    by_contra hlt
    unfold raInit nSetter at he
    rw [if_neg hlt] at he
    cases he
  · intro hlt
    refine ⟨"Sample size n must be <= number of transforms", ?_⟩
    unfold raInit nSetter
    rw [if_pos hlt]
  · rintro ⟨e, he⟩
    by_contra hlt
    unfold nSetter at he
    rw [if_neg hlt] at he
    cases he
  · intro hlt
    refine ⟨"Sample size n must be <= number of transforms", ?_⟩
    unfold nSetter
    rw [if_pos hlt]
  · intro st hst
    unfold raInit nSetter at hst
    by_cases hlt : (transforms.length : ℤ) < n
    · rw [if_pos hlt] at hst; cases hst
    · rw [if_neg hlt] at hst
      cases hst
      exact ⟨rfl, rfl, rfl⟩

/-- Witness for C2 (amended) at a concrete input: over an empty pool,
`n = 1` (the default) raises a validation error. -/
theorem claim_C2_n_validation_witness :
    (∃ e, raInit ([] : List Nat) 10 1 = Except.error e) ∧
    (∀ st, raInit ([] : List Nat) 10 1 = Except.ok st →
      st.n = 1 ∧ st.transforms = [] ∧ st.p = mSetter 10) :=
  ⟨(claim_C2_n_validation ([] : List Nat) 10 1).1.mpr (by decide),
   (claim_C2_n_validation ([] : List Nat) 10 1).2.2⟩

/-- C3 counterexample: the `m` getter does not return `clamp(m_in, 0, 100)`
for every integer input — for `m_in = 29` the stored binary64 probability
is the double nearest `0.29`, the product with `100` rounds to just below
`29`, and `int()` truncates it to `28`. -/
theorem claim_C3_counterexample : mGetter (mSetter 29) ≠ 29 := by
  have h : mGetter (mSetter 29) = 28 := by with_unfolding_all rfl
  rw [h]; decide

/-- C3 (amended): the stored probability is
`min(max(fl(m_in / 100), 0), 1)` under binary64 arithmetic and the getter
returns the truncation of the binary64 product `fl(p · 100)`; this equals
`clamp(m_in, 0, 100)` for the inputs `-1, 0, 10, 100, 101` (yielding
`0, 0, 10, 100, 100`) but yields `28`, not `29`, for the input `29`. -/
theorem claim_C3_m_clamping :
    mGetter (mSetter (-1)) = 0 ∧ mGetter (mSetter 0) = 0 ∧
    mGetter (mSetter 10) = 10 ∧ mGetter (mSetter 29) = 28 ∧
    mGetter (mSetter 100) = 100 ∧ mGetter (mSetter 101) = 100 ∧
    mSetter 29 = (5224175567749775 : ℚ) / 18014398509481984 := by
  refine ⟨?_, ?_, ?_, ?_, ?_, ?_, ?_⟩ <;> with_unfolding_all rfl

/-- C4: `_sub_chars` with the leet mapping at probability 1.0 replaces
every occurrence of every pattern in mapping order: `"you what mate?"`
yields `"u w@ m8?"` and `"shadow banned"` yields `"shad0w b&"` (the
earlier pattern `anned` wins the span that `and` would otherwise match). -/
theorem claim_C4_leet_prob_one :
    add_leet allTrue "you what mate?".toList = some "u w@ m8?".toList ∧
    add_leet allTrue "shadow banned".toList = some "shad0w b&".toList := by
  decide

/-- C5 counterexample: word-granularity substitution at probability 0.0 is
not the identity on every input — on `"a  b"` (two spaces) even the empty
mapping returns the whitespace-normalized `"a b"`. -/
theorem claim_C5_counterexample :
    sub_words allFalse [] "a  b".toList ≠ "a  b".toList := by decide

/-- C5 (amended): substitution at probability 0.0 never replaces an
occurrence: at character granularity every returning scan yields the input
unchanged (and the scan always returns when every pattern is non-empty);
at word granularity the token list is unchanged and the result is the
tokens rejoined with single spaces — equal to the input exactly when the
input is already single-space-delimited without leading or trailing
whitespace. -/
theorem claim_C5_prob_zero_identity :
    (∀ (mapping : List (List Char × List Char)) (s : List Char) (c : Nat) r,
        subCharsList allFalse mapping s c = some r → r.1 = s) ∧
    (∀ (mapping : List (List Char × List Char)) (s : List Char),
        (∀ pr ∈ mapping, pr.1 ≠ ([] : List Char)) →
        sub_chars allFalse mapping s = some s) ∧
    (∀ (mapping : List (List Char × List Char)) (s : List Char),
        sub_words allFalse mapping s = joinSpace (pySplit s)) ∧
    (∀ (mapping : List (List Char × List Char)) (s : List Char),
        joinSpace (pySplit s) = s → sub_words allFalse mapping s = s) := by
  refine ⟨fun mapping s c r h => subCharsList_allFalse h, ?_,
    fun mapping s => sub_words_allFalse mapping s, ?_⟩
  · intro mapping s hne
    obtain ⟨r, hr⟩ := subCharsList_total allFalse hne s 0
    have h1 : r.1 = s := subCharsList_allFalse hr
    simp [sub_chars, hr, h1]
  · intro mapping s hjoin
    rw [sub_words_allFalse, hjoin]

/-- Witness for C5 (amended) at concrete inputs: `_sub_chars` at
probability 0.0 is the identity on `"banana"` with mapping
`{"a": "b"}`, and `_sub_words` at probability 0.0 is the identity on the
already-normalized `"dog house"`. -/
theorem claim_C5_prob_zero_identity_witness :
    sub_chars allFalse [("a".toList, "b".toList)] "banana".toList
      = some "banana".toList ∧
    sub_words allFalse [("a".toList, "b".toList)] "dog house".toList
      = "dog house".toList :=
  ⟨claim_C5_prob_zero_identity.2.1 [("a".toList, "b".toList)]
     "banana".toList (by decide),
   claim_C5_prob_zero_identity.2.2.2 [("a".toList, "b".toList)]
     "dog house".toList (by decide)⟩

/-- C6: for every pool of size `k` and every `n ≤ k`, one iteration of the
sampler yields exactly `n` transforms, drawn without replacement (the
yielded pool elements form a sub-permutation of the pool, hence are
pairwise distinct whenever the pool has no duplicates), each pre-bound
with the current probability `p`. -/
theorem claim_C6_sampler_iteration {α : Type} (pick : Nat → Nat)
    (pool : List α) (n : Nat) (p : ℚ) (hn : n ≤ pool.length) :
    (raIter pick pool n p).length = n ∧
    ((raIter pick pool n p).map Prod.fst).Subperm pool ∧
    (∀ x ∈ raIter pick pool n p, x.2 = p) ∧
    (pool.Nodup → ((raIter pick pool n p).map Prod.fst).Nodup) := by
  obtain ⟨h1, h2⟩ := sampleGo_spec pick n 0 pool hn
  have hmap : (raIter pick pool n p).map Prod.fst = sampleGo pick n 0 pool := by
    unfold raIter
    rw [List.map_map]
    exact List.map_id _
  refine ⟨by simp [raIter, h1], hmap ▸ h2, ?_, fun hnd => ?_⟩
  · intro x hx
    simp only [raIter, List.mem_map] at hx
    obtain ⟨f, _, rfl⟩ := hx
    rfl
  · rw [hmap]
    obtain ⟨l, hlp, hls⟩ := h2
    exact hlp.nodup_iff.mp (hls.nodup hnd)

/-- Witness for C6 at a concrete input: drawing 3 of the 4 pool elements
`[10, 20, 30, 40]` with probability `1/2` bound to each. -/
theorem claim_C6_sampler_iteration_witness :
    (raIter (fun c => c * 7 + 3) ([10, 20, 30, 40] : List Nat) 3
        (1 / 2 : ℚ)).length = 3 ∧
    ((raIter (fun c => c * 7 + 3) ([10, 20, 30, 40] : List Nat) 3
        (1 / 2 : ℚ)).map Prod.fst).Subperm [10, 20, 30, 40] ∧
    (∀ x ∈ raIter (fun c => c * 7 + 3) ([10, 20, 30, 40] : List Nat) 3
        (1 / 2 : ℚ), x.2 = (1 / 2 : ℚ)) ∧
    (([10, 20, 30, 40] : List Nat).Nodup →
      ((raIter (fun c => c * 7 + 3) ([10, 20, 30, 40] : List Nat) 3
        (1 / 2 : ℚ)).map Prod.fst).Nodup) :=
  claim_C6_sampler_iteration (fun c => c * 7 + 3) [10, 20, 30, 40] 3
    (1 / 2 : ℚ) (by decide)

/-- C7: the adjacent-pair swap scans left-to-right, swapping the cursor
element with its right neighbour and skipping the pair on success, else
advancing by one: every run realizes a set of pairwise disjoint adjacent
transpositions (no element is swapped twice), the Bernoulli trial is drawn
at most `n - 1` times for a length-`n` input, and at probability 1.0 the
input `"The man"` yields exactly `"hT eamn"`. -/
theorem claim_C7_swap_chars :
    (∀ (coins : Nat → Bool) (s : List Char),
        SwapSpec s (swap_chars coins s) ∧
        (swapGo coins s 0).2 ≤ s.length - 1) ∧
    swap_chars allTrue "The man".toList = "hT eamn".toList := by
  constructor
  · intro coins s
    obtain ⟨h1, h2⟩ := swapGo_spec coins s.length s (le_refl _) 0
    exact ⟨h1, by omega⟩
  · decide

/-- C8: removing articles at probability 1.0 from
`"The man has a brown dog"` yields `"man has brown dog"` (emptied tokens
dropped, remainder rejoined with single spaces), and re-applying
`remove_articles` to that result returns it unchanged. -/
theorem claim_C8_remove_articles_idempotent :
    remove_articles allTrue "The man has a brown dog".toList
      = "man has brown dog".toList ∧
    remove_articles allTrue "man has brown dog".toList
      = "man has brown dog".toList := by
  decide

/-- C9: round-trip of the contraction mapping and its exact inverse at
probability 1.0: `"alice is not dead"` becomes `"alice isn't dead"` under
`add_contractions`, and `add_expansions` returns it to
`"alice is not dead"`. -/
theorem claim_C9_contraction_roundtrip :
    add_contractions allTrue "alice is not dead".toList
      = some aliceContracted ∧
    add_expansions allTrue aliceContracted
      = some "alice is not dead".toList := by
  decide

/-- C10: the `_sub_chars` scan terminates for every coin stream, every
input string and every mapping whose patterns are all non-empty: a skipped
match advances the cursor by `len(pattern) ≥ 1` and a replacement leaves
`len(string) - cursor` strictly smaller, so the canonical fuel suffices and
the scan returns a result. -/
theorem claim_C10_sub_chars_terminates (coins : Nat → Bool)
    (mapping : List (List Char × List Char)) (s : List Char)
    (hne : ∀ pr ∈ mapping, pr.1 ≠ ([] : List Char)) :
    ∃ out, sub_chars coins mapping s = some out := by
  obtain ⟨r, hr⟩ := subCharsList_total coins hne s 0
  exact ⟨r.1, by simp [sub_chars, hr]⟩

/-- Witness for C10 at a concrete input: the scan of `"banned"` under the
full leet mapping with all-true coins returns a result. -/
theorem claim_C10_sub_chars_terminates_witness :
    ∃ out, sub_chars allTrue LEETMAP "banned".toList = some out :=
  claim_C10_sub_chars_terminates allTrue LEETMAP "banned".toList (by decide)

end Niacin
